import Mathlib

set_option autoImplicit false

/-!
Verification of the dataflow/liveness analysis in `ngraph/analysis/dataflow.py`.

Operations are identified by natural numbers; an `OpGraph` assigns to every
identifier the observable fields the analysis reads: `args` (data inputs, in
order), `other_deps` (ordering-only dependencies, in stored order), `defs`
(operations whose storage this operation writes), the `persistent` flag, and
`tensor_desc` (the base of the operation's tensor description when the
operation is a `TensorOp`, `none` otherwise).

The successors map (`defaultdict(OrderedSet)` in the source) is modelled as an
insertion-ordered association list `SuccMap`; `OrderedSet.add` appends an
element only when absent, which `addEdge` reproduces.  `_fill_successors` is
unbounded recursion in Python, so it is embedded with an explicit fuel
parameter: `none` means the fuel ran out (which on acyclic graphs never
happens for sufficient fuel, proved below).
-/

namespace NGraph

abbrev OpId := Nat
abbrev Base := Nat

/-- The fields of an ngraph `Op` that the dataflow analysis reads. -/
structure Operation where
  args : List OpId
  other_deps : List OpId
  defs : List OpId
  persistent : Bool
  tensor_desc : Option Base
deriving DecidableEq, Repr

abbrev OpGraph := OpId → Operation

/-- Embeds `base_tensor_descriptions`: the set of bases of the tensor
descriptions of the ops in the collection that are `TensorOp`s (i.e. have a
tensor description). -/
def base_tensor_descriptions (g : OpGraph) (ops : List OpId) : Finset Base :=
  (ops.filterMap (fun op => (g op).tensor_desc)).toFinset

/-- The predecessor sequence `w.other_deps + list(w.args)` iterated by
`_fill_successors`. -/
def preds (g : OpGraph) (w : OpId) : List OpId :=
  (g w).other_deps ++ (g w).args

/-- The successors map: an insertion-ordered association list from an op to
the insertion-ordered, duplicate-free list of its successors. -/
abbrev SuccMap := List (OpId × List OpId)

/-- The keys of the successors map, in insertion order. -/
def keys (m : SuccMap) : List OpId := m.map Prod.fst

/-- Lookup in an insertion-ordered association list. -/
def find {β : Type} : List (OpId × β) → OpId → Option β
  | [], _ => none
  | (a, x) :: rest, k => if a = k then some x else find rest k

/-- Embeds `if w not in self.successors: self.successors[w] = OrderedSet()`. -/
def insertKey (m : SuccMap) (w : OpId) : SuccMap :=
  if w ∈ keys m then m else m ++ [(w, [])]

/-- Embeds `self.successors[v].add(w)`: `OrderedSet.add` appends `w` to `v`'s
list when absent; the `defaultdict` creates the entry when `v` is not a key. -/
def addEdge : SuccMap → OpId → OpId → SuccMap
  | [], v, w => [(v, [w])]
  | (a, s) :: rest, v, w =>
      if a = v then (a, if w ∈ s then s else s ++ [w]) :: rest
      else (a, s) :: addEdge rest v w

/-- Embeds the loop body of `_fill_successors`:
`for v in w.other_deps + list(w.args): if v not in successors: recurse; successors[v].add(w)`.
The recursive call is abstracted as `step` (it will be `fill_successors` at one
fuel less). -/
def fill_list (step : OpId → SuccMap → Option SuccMap) :
    List OpId → OpId → SuccMap → Option SuccMap
  | [], _, m => some m
  | v :: vs, w, m =>
      (if v ∈ keys m then some m else step v m).bind
        (fun m2 => fill_list step vs w (addEdge m2 v w))

/-- Embeds `_fill_successors(w)` with an explicit fuel bound on the recursion
depth: the Python original is unbounded recursion and diverges on cyclic
graphs, which the fuel makes explicit (`none` = fuel exhausted). -/
def fill_successors (g : OpGraph) : Nat → OpId → SuccMap → Option SuccMap
  | 0 => fun _ _ => none
  | fuel + 1 => fun w m => fill_list (fill_successors g fuel) (preds g w) w (insertKey m w)

/-- Embeds the constructor loop `for w in results: self._fill_successors(w)`,
starting from the given map. -/
def buildSuccessors (g : OpGraph) (fuel : Nat) : List OpId → SuccMap → Option SuccMap
  | [], m => some m
  | w :: ws, m =>
      match fill_successors g fuel w m with
      | none => none
      | some m2 => buildSuccessors g fuel ws m2

/-- The successors map built by `DataFlowGraph.__init__` from the result ops
(starting from the empty `defaultdict`). -/
def build (g : OpGraph) (fuel : Nat) (results : List OpId) : Option SuccMap :=
  buildSuccessors g fuel results []

/-- Embeds the local `can_do_inplace = lambda x: False` of `liveness`. -/
def can_do_inplace : OpId → Bool := fun _ => false

/-- Embeds `base_tensor_descriptions(x for x in self.successors if x.persistent)`:
the dict iterates over its keys. -/
def persistentBases (g : OpGraph) (m : SuccMap) : Finset Base :=
  base_tensor_descriptions g ((keys m).filter (fun x => (g x).persistent))

/-- Pointwise update of the liveness dict, modelled as a function update. -/
def updMap (f : OpId → Finset Base) (k : OpId) (v : Finset Base) : OpId → Finset Base :=
  fun x => if x = k then v else f x

/-- The pair sequence `reversed(list(zip(order[1:], order[:-1])))` of the
backward pass. -/
def pairsOf (order : List OpId) : List (OpId × OpId) :=
  ((order.drop 1).zip order.dropLast).reverse

/-- Embeds the backward-pass loop of `liveness`:
`liveness[previous] = use | (liveness[current] - defs) | persistent`. -/
def livenessUpdate (g : OpGraph) (pers : Finset Base) :
    List (OpId × OpId) → (OpId → Finset Base) → (OpId → Finset Base)
  | [], lv => lv
  | (current, previous) :: rest, lv =>
      livenessUpdate g pers rest
        (updMap lv previous
          (base_tensor_descriptions g (g current).args ∪
            (lv current \ base_tensor_descriptions g (g current).defs) ∪ pers))

/-- Embeds the adjustment loop of `liveness`:
`for op in order: if not can_do_inplace(op): liveness[op] |= base_tensor_descriptions(op.args)`. -/
def livenessAdjust (g : OpGraph) (cip : OpId → Bool) :
    List OpId → (OpId → Finset Base) → (OpId → Finset Base)
  | [], lv => lv
  | op :: rest, lv =>
      livenessAdjust g cip rest
        (if cip op then lv
         else updMap lv op (lv op ∪ base_tensor_descriptions g (g op).args))

/-- Embeds `DataFlowGraph.liveness()`.  `m` is the successors map, `order` the
instruction order supplied by the external `topsort` (spec §4.3).  The dict
`dict((op, set()) for op in order)` with its subsequent in-place updates is
represented as the association list pairing each instruction of the order with
its final live set: seed at the last instruction, backward pass over the
reversed adjacent pairs, then the adjustment pass. -/
def liveness (g : OpGraph) (results : List OpId) (m : SuccMap) (order : List OpId) :
    List (OpId × Finset Base) :=
  match order with
  | [] => []
  | o :: os =>
      (o :: os).map (fun op => (op,
        livenessAdjust g can_do_inplace (o :: os)
          (livenessUpdate g (persistentBases g m) (pairsOf (o :: os))
            (updMap (fun _ => ∅) ((o :: os).getLast (List.cons_ne_nil o os))
              (base_tensor_descriptions g results ∪ persistentBases g m)))
          op))

/-- The backward liveness recurrence of spec §4.4 (steps 3–4), as a function of
the suffix of the order strictly after the current program point:
`live_after(previous) = use(current) ∪ (live_after(current) − defs(current)) ∪ persistent`,
seeded with `result_bases ∪ persistent_bases` after the last instruction. -/
def live_after_chain (g : OpGraph) (pers seed : Finset Base) : List OpId → Finset Base
  | [] => seed
  | c :: rest =>
      base_tensor_descriptions g (g c).args ∪
        (live_after_chain g pers seed rest \ base_tensor_descriptions g (g c).defs) ∪ pers

/-- Reachability from the result set along `arguments ∪ other_dependencies`,
the transitive closure traversed by `_fill_successors`. -/
inductive Reachable (g : OpGraph) (results : List OpId) : OpId → Prop
  | result : ∀ w, w ∈ results → Reachable g results w
  | pred : ∀ w v, Reachable g results w → v ∈ preds g w → Reachable g results v

/-! ### Invariants of the successors map -/

/-- `m'` extends `m`: keys persist and successor lists only grow. -/
def Extends (m m' : SuccMap) : Prop :=
  (∀ x, x ∈ keys m → x ∈ keys m') ∧
  ∀ u s, find m u = some s → ∃ s', find m' u = some s' ∧ ∀ w, w ∈ s → w ∈ s'

/-- `w`'s predecessor loop has run to completion against `m`: every
predecessor of `w` is a key and records `w` as a successor. -/
def Processed (g : OpGraph) (m : SuccMap) (w : OpId) : Prop :=
  ∀ v ∈ preds g w, ∃ s, find m v = some s ∧ w ∈ s

/-- Every successor list is duplicate-free (`OrderedSet`). -/
def ValsNodup (m : SuccMap) : Prop :=
  ∀ u s, find m u = some s → s.Nodup

/-- Every recorded edge `u → w` is justified: `u` is a predecessor of `w`. -/
def EdgeSound (g : OpGraph) (m : SuccMap) : Prop :=
  ∀ u s, find m u = some s → ∀ w ∈ s, u ∈ preds g w

/-! ### Basic lemmas about the association-list operations -/

theorem keys_cons (a : OpId) (s : List OpId) (rest : SuccMap) :
    keys ((a, s) :: rest) = a :: keys rest := Eq.refl _

theorem find_cons {β : Type} (a : OpId) (x : β) (rest : List (OpId × β)) (k : OpId) :
    find ((a, x) :: rest) k = if a = k then some x else find rest k := Eq.refl _

theorem mem_keys_iff_find {m : SuccMap} {k : OpId} :
    k ∈ keys m ↔ ∃ s, find m k = some s := by
  induction m with
  | nil => simp [keys, find]
  | cons p rest ih =>
      obtain ⟨a, s⟩ := p
      by_cases h : a = k
      · subst h
        rw [keys_cons, find_cons, if_pos (Eq.refl a)]
        simp
      · rw [keys_cons, find_cons, if_neg h, List.mem_cons]
        rw [← ih]
        constructor
        · intro hh
          rcases hh with h1 | h1
          · exact absurd h1.symm h
          · exact h1
        · intro hh; exact Or.inr hh

theorem find_mem_keys {m : SuccMap} {k : OpId} {s : List OpId}
    (h : find m k = some s) : k ∈ keys m :=
  mem_keys_iff_find.mpr ⟨s, h⟩

theorem find_append_of_some {β : Type} {m1 : List (OpId × β)} (m2 : List (OpId × β))
    {k : OpId} {x : β} (h : find m1 k = some x) : find (m1 ++ m2) k = some x := by
  induction m1 with
  | nil => simp [find] at h
  | cons p rest ih =>
      obtain ⟨a, y⟩ := p
      by_cases hak : a = k
      · subst hak; simp [find] at h ⊢; exact h
      · simp [find, hak] at h ⊢; exact ih h

theorem find_append_of_none {β : Type} {m1 : List (OpId × β)} (m2 : List (OpId × β))
    {k : OpId} (h : find m1 k = none) : find (m1 ++ m2) k = find m2 k := by
  induction m1 with
  | nil => simp
  | cons p rest ih =>
      obtain ⟨a, y⟩ := p
      by_cases hak : a = k
      · subst hak; simp [find] at h
      · simp [find, hak] at h ⊢; exact ih h

theorem keys_insertKey (m : SuccMap) (w : OpId) :
    keys (insertKey m w) = if w ∈ keys m then keys m else keys m ++ [w] := by
  unfold insertKey
  split
  · rfl
  · simp [keys]

theorem mem_keys_insertKey_self (m : SuccMap) (w : OpId) :
    w ∈ keys (insertKey m w) := by
  rw [keys_insertKey]
  split
  · assumption
  · simp

theorem find_insertKey_self {m : SuccMap} {w : OpId} (h : w ∉ keys m) :
    find (insertKey m w) w = some [] := by
  have hn : find m w = none := by
    cases hf : find m w with
    | none => rfl
    | some s => exact absurd (find_mem_keys hf) h
  rw [insertKey, if_neg h, find_append_of_none _ hn]
  simp [find]

theorem find_insertKey_of_mem {m : SuccMap} {k : OpId} (w : OpId) (h : k ∈ keys m) :
    find (insertKey m w) k = find m k := by
  rw [insertKey]
  split
  · rfl
  · obtain ⟨s, hs⟩ := mem_keys_iff_find.mp h
    rw [hs]; exact find_append_of_some _ hs

theorem addEdge_cons_self (a : OpId) (s : List OpId) (rest : SuccMap) (w : OpId) :
    addEdge ((a, s) :: rest) a w = (a, if w ∈ s then s else s ++ [w]) :: rest := by
  simp [addEdge]

theorem addEdge_cons_ne {a v : OpId} (s : List OpId) (rest : SuccMap) (w : OpId)
    (hav : a ≠ v) : addEdge ((a, s) :: rest) v w = (a, s) :: addEdge rest v w := by
  simp [addEdge, hav]

theorem keys_addEdge_of_mem {m : SuccMap} {v : OpId} (w : OpId) (h : v ∈ keys m) :
    keys (addEdge m v w) = keys m := by
  induction m with
  | nil => simp [keys] at h
  | cons p rest ih =>
      obtain ⟨a, s⟩ := p
      by_cases hav : a = v
      · subst hav
        rw [addEdge_cons_self, keys_cons, keys_cons]
      · have hv : v ∈ keys rest := by
          rw [keys_cons, List.mem_cons] at h
          rcases h with h1 | h1
          · exact absurd h1.symm hav
          · exact h1
        rw [addEdge_cons_ne s rest w hav, keys_cons, keys_cons, ih hv]

theorem keys_addEdge_of_not_mem {m : SuccMap} {v : OpId} (w : OpId) (h : v ∉ keys m) :
    keys (addEdge m v w) = keys m ++ [v] := by
  induction m with
  | nil => simp [addEdge, keys]
  | cons p rest ih =>
      obtain ⟨a, s⟩ := p
      have hav : a ≠ v := by
        intro hav
        exact h (by rw [keys_cons, hav]; exact List.mem_cons_self v (keys rest))
      have hv : v ∉ keys rest := by
        intro hv
        exact h (by rw [keys_cons]; exact List.mem_cons_of_mem a hv)
      rw [addEdge_cons_ne s rest w hav, keys_cons, keys_cons, ih hv, List.cons_append]

theorem find_addEdge_self {m : SuccMap} {v : OpId} {s : List OpId} (w : OpId)
    (h : find m v = some s) :
    find (addEdge m v w) v = some (if w ∈ s then s else s ++ [w]) := by
  induction m with
  | nil => simp [find] at h
  | cons p rest ih =>
      obtain ⟨a, t⟩ := p
      by_cases hav : a = v
      · subst hav
        rw [find_cons, if_pos (Eq.refl a)] at h
        obtain rfl : t = s := Option.some.inj h
        rw [addEdge_cons_self, find_cons, if_pos (Eq.refl a)]
      · rw [find_cons, if_neg hav] at h
        rw [addEdge_cons_ne t rest w hav, find_cons, if_neg hav, ih h]

theorem find_addEdge_self_none {m : SuccMap} {v : OpId} (w : OpId)
    (h : find m v = none) : find (addEdge m v w) v = some [w] := by
  induction m with
  | nil => simp [addEdge, find]
  | cons p rest ih =>
      obtain ⟨a, t⟩ := p
      by_cases hav : a = v
      · subst hav
        rw [find_cons, if_pos (Eq.refl a)] at h
        exact absurd h (by simp)
      · rw [find_cons, if_neg hav] at h
        rw [addEdge_cons_ne t rest w hav, find_cons, if_neg hav, ih h]

theorem find_addEdge_of_ne {m : SuccMap} {u v : OpId} (w : OpId) (h : u ≠ v) :
    find (addEdge m v w) u = find m u := by
  induction m with
  | nil =>
      have hvu : v ≠ u := Ne.symm h
      simp [addEdge, find, hvu]
  | cons p rest ih =>
      obtain ⟨a, t⟩ := p
      by_cases hav : a = v
      · subst hav
        have hau : ¬ a = u := fun hh => h hh.symm
        rw [addEdge_cons_self, find_cons, find_cons, if_neg hau, if_neg hau]
      · rw [addEdge_cons_ne t rest w hav, find_cons, find_cons]
        by_cases hau : a = u
        · rw [if_pos hau, if_pos hau]
        · rw [if_neg hau, if_neg hau, ih]

theorem Extends.rfl (m : SuccMap) : Extends m m :=
  ⟨fun _ h => h, fun _ s h => ⟨s, h, fun _ hw => hw⟩⟩

theorem Extends.trans {m1 m2 m3 : SuccMap} (h12 : Extends m1 m2) (h23 : Extends m2 m3) :
    Extends m1 m3 := by
  refine ⟨fun x hx => h23.1 x (h12.1 x hx), fun u s hs => ?_⟩
  obtain ⟨s2, hs2, hsub2⟩ := h12.2 u s hs
  obtain ⟨s3, hs3, hsub3⟩ := h23.2 u s2 hs2
  exact ⟨s3, hs3, fun w hw => hsub3 w (hsub2 w hw)⟩

theorem extends_insertKey (m : SuccMap) (w : OpId) : Extends m (insertKey m w) := by
  constructor
  · intro x hx
    rw [keys_insertKey]
    split
    · exact hx
    · exact List.mem_append_left _ hx
  · intro u s hs
    rw [find_insertKey_of_mem w (find_mem_keys hs), hs]
    exact ⟨s, Eq.refl _, fun _ hw => hw⟩

theorem extends_addEdge (m : SuccMap) (v w : OpId) : Extends m (addEdge m v w) := by
  constructor
  · intro x hx
    by_cases hv : v ∈ keys m
    · rw [keys_addEdge_of_mem w hv]; exact hx
    · rw [keys_addEdge_of_not_mem w hv]; exact List.mem_append_left _ hx
  · intro u s hs
    by_cases huv : u = v
    · subst huv
      rw [find_addEdge_self w hs]
      refine ⟨_, Eq.refl _, fun x hx => ?_⟩
      split
      · exact hx
      · exact List.mem_append_left _ hx
    · rw [find_addEdge_of_ne w huv, hs]
      exact ⟨s, Eq.refl _, fun _ hw => hw⟩

theorem Processed.mono {g : OpGraph} {m m' : SuccMap} {w : OpId}
    (hext : Extends m m') (hp : Processed g m w) : Processed g m' w := by
  intro v hv
  obtain ⟨s, hs, hws⟩ := hp v hv
  obtain ⟨s', hs', hsub⟩ := hext.2 v s hs
  exact ⟨s', hs', hsub w hws⟩

/-! ### Preservation of the invariants by the two elementary map updates -/

theorem keysNodup_insertKey (m : SuccMap) (w : OpId) (h : (keys m).Nodup) :
    (keys (insertKey m w)).Nodup := by
  by_cases hw : w ∈ keys m
  · rw [keys_insertKey, if_pos hw]; exact h
  · rw [keys_insertKey, if_neg hw]
    simp [List.nodup_append, h, hw]

theorem keysNodup_addEdge (m : SuccMap) (v w : OpId) (h : (keys m).Nodup) :
    (keys (addEdge m v w)).Nodup := by
  by_cases hv : v ∈ keys m
  · rw [keys_addEdge_of_mem w hv]; exact h
  · rw [keys_addEdge_of_not_mem w hv]
    simp [List.nodup_append, h, hv]

theorem valsNodup_insertKey {m : SuccMap} (w : OpId) (h : ValsNodup m) :
    ValsNodup (insertKey m w) := by
  intro u s hs
  by_cases hw : w ∈ keys m
  · rw [insertKey, if_pos hw] at hs; exact h u s hs
  · rw [insertKey, if_neg hw] at hs
    cases hf : find m u with
    | some t =>
        rw [find_append_of_some _ hf] at hs
        obtain rfl := Option.some.inj hs
        exact h u t hf
    | none =>
        rw [find_append_of_none _ hf, find_cons] at hs
        by_cases hwu : w = u
        · rw [if_pos hwu] at hs
          obtain rfl := Option.some.inj hs
          exact List.nodup_nil
        · rw [if_neg hwu] at hs
          exact absurd hs (by simp [find])

theorem valsNodup_addEdge {m : SuccMap} (v w : OpId) (h : ValsNodup m) :
    ValsNodup (addEdge m v w) := by
  intro u s hs
  by_cases huv : u = v
  · subst huv
    cases hf : find m u with
    | some t =>
        rw [find_addEdge_self w hf] at hs
        obtain rfl := Option.some.inj hs
        by_cases hw : w ∈ t
        · rw [if_pos hw]; exact h u t hf
        · rw [if_neg hw]
          simp [List.nodup_append, h u t hf, hw]
    | none =>
        rw [find_addEdge_self_none w hf] at hs
        obtain rfl := Option.some.inj hs
        simp
  · rw [find_addEdge_of_ne w huv] at hs
    exact h u s hs

theorem edgeSound_insertKey {g : OpGraph} {m : SuccMap} (w : OpId) (h : EdgeSound g m) :
    EdgeSound g (insertKey m w) := by
  intro u s hs x hx
  by_cases hw : w ∈ keys m
  · rw [insertKey, if_pos hw] at hs; exact h u s hs x hx
  · rw [insertKey, if_neg hw] at hs
    cases hf : find m u with
    | some t =>
        rw [find_append_of_some _ hf] at hs
        obtain rfl := Option.some.inj hs
        exact h u t hf x hx
    | none =>
        rw [find_append_of_none _ hf, find_cons] at hs
        by_cases hwu : w = u
        · rw [if_pos hwu] at hs
          obtain rfl := Option.some.inj hs
          exact absurd hx (List.not_mem_nil x)
        · rw [if_neg hwu] at hs
          exact absurd hs (by simp [find])

theorem edgeSound_addEdge {g : OpGraph} {m : SuccMap} {v w : OpId}
    (h : EdgeSound g m) (hvw : v ∈ preds g w) : EdgeSound g (addEdge m v w) := by
  intro u s hs x hx
  by_cases huv : u = v
  · subst huv
    cases hf : find m u with
    | some t =>
        rw [find_addEdge_self w hf] at hs
        obtain rfl := Option.some.inj hs
        by_cases hw : w ∈ t
        · rw [if_pos hw] at hx; exact h u t hf x hx
        · rw [if_neg hw] at hx
          rcases List.mem_append.mp hx with h1 | h1
          · exact h u t hf x h1
          · obtain rfl : x = w := by simpa using h1
            exact hvw
    | none =>
        rw [find_addEdge_self_none w hf] at hs
        obtain rfl := Option.some.inj hs
        obtain rfl : x = w := by simpa using hx
        exact hvw
  · rw [find_addEdge_of_ne w huv] at hs
    exact h u s hs x hx

/-! ### The invariant carried by the recursive traversal -/

/-- The contract satisfied by a successful `_fill_successors` call, stated for
an abstract recursive step so it can be threaded through the loop body
(`fill_list`).  `R` is an arbitrary property closed under the traversal; it is
instantiated with reachability from the result set. -/
def StepOK (g : OpGraph) (R : OpId → Prop) (step : OpId → SuccMap → Option SuccMap) : Prop :=
  ∀ v m m', step v m = some m' →
    Extends m m' ∧ v ∈ keys m' ∧ Processed g m' v ∧
    (∀ x, x ∈ keys m' → x ∈ keys m ∨ Processed g m' x) ∧
    ((keys m).Nodup → (keys m').Nodup) ∧
    (ValsNodup m → ValsNodup m') ∧
    (EdgeSound g m → EdgeSound g m') ∧
    ((∀ x ∈ keys m, R x) → R v → ∀ x ∈ keys m', R x)

theorem fill_list_ok (g : OpGraph) (R : OpId → Prop)
    (step : OpId → SuccMap → Option SuccMap) (hstep : StepOK g R step) :
    ∀ (vs : List OpId) (w : OpId) (m m' : SuccMap),
      (∀ v ∈ vs, v ∈ preds g w) →
      fill_list step vs w m = some m' →
      Extends m m' ∧
      (∀ v ∈ vs, ∃ s, find m' v = some s ∧ w ∈ s) ∧
      (∀ x, x ∈ keys m' → x ∈ keys m ∨ Processed g m' x) ∧
      ((keys m).Nodup → (keys m').Nodup) ∧
      (ValsNodup m → ValsNodup m') ∧
      (EdgeSound g m → EdgeSound g m') ∧
      ((∀ x ∈ keys m, R x) → (∀ v ∈ vs, R v) → ∀ x ∈ keys m', R x) := by
  intro vs
  induction vs with
  | nil =>
      intro w m m' hvs h
      rw [fill_list] at h
      obtain rfl := Option.some.inj h
      exact ⟨Extends.rfl m, by simp, fun x hx => Or.inl hx,
        fun h => h, fun h => h, fun h => h, fun h _ => h⟩
  | cons v vs ih =>
      intro w m m' hvs h
      rw [fill_list] at h
      have hvw : v ∈ preds g w := hvs v (List.mem_cons_self v vs)
      by_cases hv : v ∈ keys m
      · rw [if_pos hv, Option.some_bind] at h
        obtain ⟨s, hs⟩ := mem_keys_iff_find.mp hv
        obtain ⟨hext, hedges, hnew, hknd, hvnd, hes, hr⟩ :=
          ih w (addEdge m v w) m' (fun u hu => hvs u (List.mem_cons_of_mem _ hu)) h
        have hextA : Extends m m' := (extends_addEdge m v w).trans hext
        refine ⟨hextA, ?_, ?_, ?_, ?_, ?_, ?_⟩
        · intro u hu
          rcases List.mem_cons.mp hu with rfl | hu2
          · have h1 : find (addEdge m u w) u = some (if w ∈ s then s else s ++ [w]) :=
              find_addEdge_self w hs
            obtain ⟨s', hs', hsub⟩ := hext.2 u _ h1
            refine ⟨s', hs', hsub w ?_⟩
            split
            · assumption
            · exact List.mem_append_right _ (List.mem_singleton_self w)
          · exact hedges u hu2
        · intro x hx
          rcases hnew x hx with hx2 | hx2
          · rw [keys_addEdge_of_mem w hv] at hx2; exact Or.inl hx2
          · exact Or.inr hx2
        · intro hnd
          exact hknd (keysNodup_addEdge m v w hnd)
        · intro hvn
          exact hvnd (valsNodup_addEdge v w hvn)
        · intro hesm
          exact hes (edgeSound_addEdge hesm hvw)
        · intro hall hRvs
          have hall2 : ∀ x ∈ keys (addEdge m v w), R x := by
            intro x hx
            rw [keys_addEdge_of_mem w hv] at hx
            exact hall x hx
          exact hr hall2 (fun u hu => hRvs u (List.mem_cons_of_mem _ hu))
      · rw [if_neg hv] at h
        cases hsv : step v m with
        | none => rw [hsv, Option.none_bind] at h; exact absurd h (by simp)
        | some m2 =>
            rw [hsv, Option.some_bind] at h
            obtain ⟨hext2, hvk2, hproc2, hnew2, hknd2, hvnd2, hes2, hr2⟩ := hstep v m m2 hsv
            obtain ⟨s, hs⟩ := mem_keys_iff_find.mp hvk2
            obtain ⟨hext, hedges, hnew, hknd, hvnd, hes, hr⟩ :=
              ih w (addEdge m2 v w) m' (fun u hu => hvs u (List.mem_cons_of_mem _ hu)) h
            have hext3 : Extends m2 m' := (extends_addEdge m2 v w).trans hext
            have hextA : Extends m m' := hext2.trans hext3
            refine ⟨hextA, ?_, ?_, ?_, ?_, ?_, ?_⟩
            · intro u hu
              rcases List.mem_cons.mp hu with rfl | hu2
              · have h1 : find (addEdge m2 u w) u = some (if w ∈ s then s else s ++ [w]) :=
                  find_addEdge_self w hs
                obtain ⟨s', hs', hsub⟩ := hext.2 u _ h1
                refine ⟨s', hs', hsub w ?_⟩
                split
                · assumption
                · exact List.mem_append_right _ (List.mem_singleton_self w)
              · exact hedges u hu2
            · intro x hx
              rcases hnew x hx with hx2 | hx2
              · rw [keys_addEdge_of_mem w hvk2] at hx2
                rcases hnew2 x hx2 with hx3 | hx3
                · exact Or.inl hx3
                · exact Or.inr (hx3.mono hext3)
              · exact Or.inr hx2
            · intro hnd
              exact hknd (keysNodup_addEdge m2 v w (hknd2 hnd))
            · intro hvn
              exact hvnd (valsNodup_addEdge v w (hvnd2 hvn))
            · intro hesm
              exact hes (edgeSound_addEdge (hes2 hesm) hvw)
            · intro hall hRvs
              have hall2 : ∀ x ∈ keys m2, R x :=
                hr2 hall (hRvs v (List.mem_cons_self v vs))
              have hall3 : ∀ x ∈ keys (addEdge m2 v w), R x := by
                intro x hx
                rw [keys_addEdge_of_mem w hvk2] at hx
                exact hall2 x hx
              exact hr hall3 (fun u hu => hRvs u (List.mem_cons_of_mem _ hu))

theorem fill_successors_ok (g : OpGraph) (R : OpId → Prop)
    (hR : ∀ w v, R w → v ∈ preds g w → R v) :
    ∀ fuel, StepOK g R (fill_successors g fuel) := by
  intro fuel
  induction fuel with
  | zero =>
      intro v m m' h
      simp [fill_successors] at h
  | succ fuel ih =>
      intro v m m' h
      rw [fill_successors] at h
      obtain ⟨hext, hedges, hnew, hknd, hvnd, hes, hr⟩ :=
        fill_list_ok g R (fill_successors g fuel) ih (preds g v) v (insertKey m v) m'
          (fun u hu => hu) h
      have hvk : v ∈ keys m' := hext.1 v (mem_keys_insertKey_self m v)
      have hproc : Processed g m' v := fun u hu => hedges u hu
      refine ⟨(extends_insertKey m v).trans hext, hvk, hproc, ?_, ?_, ?_, ?_, ?_⟩
      · intro x hx
        rcases hnew x hx with hx2 | hx2
        · rw [keys_insertKey] at hx2
          by_cases hvm : v ∈ keys m
          · rw [if_pos hvm] at hx2; exact Or.inl hx2
          · rw [if_neg hvm] at hx2
            rcases List.mem_append.mp hx2 with hx3 | hx3
            · exact Or.inl hx3
            · obtain rfl : x = v := by simpa using hx3
              exact Or.inr hproc
        · exact Or.inr hx2
      · intro hnd
        exact hknd (keysNodup_insertKey m v hnd)
      · intro hvn
        exact hvnd (valsNodup_insertKey v hvn)
      · intro hesm
        exact hes (edgeSound_insertKey v hesm)
      · intro hall hRv
        have hall2 : ∀ x ∈ keys (insertKey m v), R x := by
          intro x hx
          rw [keys_insertKey] at hx
          by_cases hvm : v ∈ keys m
          · rw [if_pos hvm] at hx; exact hall x hx
          · rw [if_neg hvm] at hx
            rcases List.mem_append.mp hx with hx3 | hx3
            · exact hall x hx3
            · obtain rfl : x = v := by simpa using hx3
              exact hRv
        exact hr hall2 (fun u hu => hR v u hRv hu)

/-! ### Consequences for the fully built map -/

/-- The invariants of a completely built successors map. -/
def GoodMap (g : OpGraph) (results : List OpId) (M : SuccMap) : Prop :=
  (keys M).Nodup ∧ ValsNodup M ∧ EdgeSound g M ∧
  (∀ x ∈ keys M, Processed g M x) ∧ (∀ x ∈ keys M, Reachable g results x)

theorem buildSuccessors_ok (g : OpGraph) (fuel : Nat) (results : List OpId) :
    ∀ (ws : List OpId) (m M : SuccMap),
      buildSuccessors g fuel ws m = some M →
      (∀ w ∈ ws, Reachable g results w) →
      GoodMap g results m →
      Extends m M ∧ GoodMap g results M ∧ (∀ w ∈ ws, w ∈ keys M) := by
  intro ws
  induction ws with
  | nil =>
      intro m M h hws hG
      rw [buildSuccessors] at h
      obtain rfl := Option.some.inj h
      exact ⟨Extends.rfl m, hG, by simp⟩
  | cons w ws ih =>
      intro m M h hws hG
      rw [buildSuccessors] at h
      cases hf : fill_successors g fuel w m with
      | none => rw [hf] at h; exact absurd h (by simp)
      | some m2 =>
          rw [hf] at h
          obtain ⟨hknd, hvnd, hes, hproc, hreach⟩ := hG
          obtain ⟨hext2, hwk2, hproc2, hnew2, hknd2, hvnd2, hes2, hr2⟩ :=
            fill_successors_ok g (Reachable g results)
              (fun a b ha hb => Reachable.pred a b ha hb) fuel w m m2 hf
          have hG2 : GoodMap g results m2 := by
            refine ⟨hknd2 hknd, hvnd2 hvnd, hes2 hes, ?_, ?_⟩
            · intro x hx
              rcases hnew2 x hx with hx2 | hx2
              · exact (hproc x hx2).mono hext2
              · exact hx2
            · exact hr2 hreach (hws w (List.mem_cons_self w ws))
          obtain ⟨hext3, hG3, hkeys3⟩ :=
            ih m2 M h (fun u hu => hws u (List.mem_cons_of_mem _ hu)) hG2
          refine ⟨hext2.trans hext3, hG3, ?_⟩
          intro u hu
          rcases List.mem_cons.mp hu with rfl | hu2
          · exact hext3.1 u hwk2
          · exact hkeys3 u hu2

theorem goodMap_nil (g : OpGraph) (results : List OpId) : GoodMap g results [] := by
  refine ⟨List.nodup_nil, ?_, ?_, ?_, ?_⟩
  · intro u s hs; simp [find] at hs
  · intro u s hs; simp [find] at hs
  · intro x hx; simp [keys] at hx
  · intro x hx; simp [keys] at hx

theorem build_ok {g : OpGraph} {fuel : Nat} {results : List OpId} {M : SuccMap}
    (h : build g fuel results = some M) :
    GoodMap g results M ∧ (∀ w ∈ results, w ∈ keys M) := by
  obtain ⟨-, hG, hk⟩ :=
    buildSuccessors_ok g fuel results results [] M h
      (fun w hw => Reachable.result w hw) (goodMap_nil g results)
  exact ⟨hG, hk⟩

/-- The keys of a successfully built successors map are exactly the operations
reachable from the result set. -/
theorem build_keys_iff_reachable {g : OpGraph} {fuel : Nat} {results : List OpId}
    {M : SuccMap} (h : build g fuel results = some M) :
    ∀ x, x ∈ keys M ↔ Reachable g results x := by
  obtain ⟨⟨hknd, hvnd, hes, hproc, hreach⟩, hres⟩ := build_ok h
  intro x
  constructor
  · exact hreach x
  · intro hr
    induction hr with
    | result w hw => exact hres w hw
    | pred w v hrw hv ihw =>
        obtain ⟨s, hs, -⟩ := hproc w ihw v hv
        exact find_mem_keys hs

/-! ### Termination on acyclic graphs -/

theorem fill_list_total (step : OpId → SuccMap → Option SuccMap)
    (vs : List OpId) (w : OpId)
    (hstep : ∀ v ∈ vs, ∀ m, ∃ m2, step v m = some m2) :
    ∀ m, ∃ m', fill_list step vs w m = some m' := by
  induction vs with
  | nil => intro m; exact ⟨m, by rw [fill_list]⟩
  | cons v vs ih =>
      intro m
      by_cases hv : v ∈ keys m
      · obtain ⟨m', hm'⟩ := ih (fun u hu => hstep u (List.mem_cons_of_mem _ hu)) (addEdge m v w)
        exact ⟨m', by rw [fill_list, if_pos hv, Option.some_bind]; exact hm'⟩
      · obtain ⟨m2, hm2⟩ := hstep v (List.mem_cons_self v vs) m
        obtain ⟨m', hm'⟩ := ih (fun u hu => hstep u (List.mem_cons_of_mem _ hu)) (addEdge m2 v w)
        exact ⟨m', by rw [fill_list, if_neg hv, hm2, Option.some_bind]; exact hm'⟩

theorem fill_successors_total (g : OpGraph) (rank : OpId → Nat)
    (hrank : ∀ w v, v ∈ preds g w → rank v < rank w) :
    ∀ fuel w m, rank w < fuel → ∃ m', fill_successors g fuel w m = some m' := by
  intro fuel
  induction fuel with
  | zero => intro w m hw; exact absurd hw (Nat.not_lt_zero _)
  | succ fuel ih =>
      intro w m hw
      rw [fill_successors]
      exact fill_list_total (fill_successors g fuel) (preds g w) w
        (fun v hv m2 => ih v m2 (Nat.lt_of_lt_of_le (hrank w v hv) (Nat.lt_succ_iff.mp hw)))
        (insertKey m w)

theorem buildSuccessors_total (g : OpGraph) (fuel : Nat) (rank : OpId → Nat)
    (hrank : ∀ w v, v ∈ preds g w → rank v < rank w) :
    ∀ (ws : List OpId) (m : SuccMap), (∀ w ∈ ws, rank w < fuel) →
      ∃ M, buildSuccessors g fuel ws m = some M := by
  intro ws
  induction ws with
  | nil => intro m hws; exact ⟨m, by rw [buildSuccessors]⟩
  | cons w ws ih =>
      intro m hws
      obtain ⟨m2, hm2⟩ := fill_successors_total g rank hrank fuel w m
        (hws w (List.mem_cons_self w ws))
      obtain ⟨M, hM⟩ := ih m2 (fun u hu => hws u (List.mem_cons_of_mem _ hu))
      exact ⟨M, by rw [buildSuccessors, hm2]; exact hM⟩

/-! ### Characterizing the liveness computation -/

theorem livenessUpdate_append (g : OpGraph) (pers : Finset Base)
    (l1 l2 : List (OpId × OpId)) (lv : OpId → Finset Base) :
    livenessUpdate g pers (l1 ++ l2) lv =
      livenessUpdate g pers l2 (livenessUpdate g pers l1 lv) := by
  induction l1 generalizing lv with
  | nil => rfl
  | cons p l1 ih =>
      obtain ⟨c, pr⟩ := p
      rw [List.cons_append, livenessUpdate, livenessUpdate, ih]

theorem pairsOf_singleton (o : OpId) : pairsOf [o] = [] := by
  simp [pairsOf]

theorem pairsOf_cons_cons (o r : OpId) (rest : List OpId) :
    pairsOf (o :: r :: rest) = pairsOf (r :: rest) ++ [(r, o)] := by
  simp [pairsOf]

theorem livenessUpdate_get (g : OpGraph) (pers seed : Finset Base) :
    ∀ (order : List OpId) (hne : order ≠ []), order.Nodup →
      ∀ (i : Nat) (h : i < order.length),
        livenessUpdate g pers (pairsOf order)
            (updMap (fun _ => ∅) (order.getLast hne) seed) (order.get ⟨i, h⟩) =
          live_after_chain g pers seed (order.drop (i + 1)) := by
  intro order
  induction order with
  | nil => intro hne; exact absurd (Eq.refl _) hne
  | cons o rest ih =>
      intro hne hnd i h
      obtain ⟨ho, hnd2⟩ := List.nodup_cons.mp hnd
      cases rest with
      | nil =>
          obtain rfl : i = 0 := Nat.lt_one_iff.mp h
          simp [pairsOf_singleton, livenessUpdate, updMap, live_after_chain]
      | cons r rest2 =>
          have hne2 : r :: rest2 ≠ [] := List.cons_ne_nil r rest2
          rw [pairsOf_cons_cons, livenessUpdate_append, List.getLast_cons hne2,
            livenessUpdate, livenessUpdate]
          cases i with
          | zero =>
              show updMap _ o _ o = _
              rw [updMap, if_pos (Eq.refl o)]
              have hrr : (r :: rest2).get ⟨0, by simp⟩ = r := Eq.refl r
              have := ih hne2 hnd2 0 (by simp)
              rw [hrr] at this
              rw [this]
              show _ = live_after_chain g pers seed (r :: rest2)
              rw [live_after_chain]
              rfl
          | succ j =>
              have hj : j < (r :: rest2).length := Nat.succ_lt_succ_iff.mp h
              rw [List.get_cons_succ]
              have hmem := List.get_mem (r :: rest2) j hj
              have hneo : (r :: rest2).get ⟨j, hj⟩ ≠ o := fun hh => ho (hh ▸ hmem)
              rw [updMap, if_neg hneo]
              exact ih hne2 hnd2 j hj

theorem livenessAdjust_not_mem (g : OpGraph) (cip : OpId → Bool) :
    ∀ (l : List OpId) (lv : OpId → Finset Base) (x : OpId), x ∉ l →
      livenessAdjust g cip l lv x = lv x := by
  intro l
  induction l with
  | nil => intro lv x hx; rfl
  | cons a rest ih =>
      intro lv x hx
      have h1 : x ≠ a := fun hh => hx (by rw [hh]; exact List.mem_cons_self a rest)
      have h2 : x ∉ rest := fun hh => hx (List.mem_cons_of_mem a hh)
      rw [livenessAdjust, ih _ x h2]
      split
      · rfl
      · rw [updMap, if_neg h1]

theorem livenessAdjust_get (g : OpGraph) :
    ∀ (l : List OpId) (lv : OpId → Finset Base), l.Nodup →
      ∀ (i : Nat) (h : i < l.length),
        livenessAdjust g can_do_inplace l lv (l.get ⟨i, h⟩) =
          lv (l.get ⟨i, h⟩) ∪ base_tensor_descriptions g (g (l.get ⟨i, h⟩)).args := by
  intro l
  induction l with
  | nil => intro lv hnd i h; exact absurd h (by simp)
  | cons a rest ih =>
      intro lv hnd i h
      obtain ⟨ha, hnd2⟩ := List.nodup_cons.mp hnd
      rw [livenessAdjust]
      have hcip : can_do_inplace a = false := Eq.refl _
      rw [hcip]
      cases i with
      | zero =>
          show livenessAdjust g can_do_inplace rest _ a = _
          rw [livenessAdjust_not_mem g can_do_inplace rest _ a ha]
          simp only [Bool.false_eq_true, if_false]
          rw [updMap, if_pos (Eq.refl a)]
          rfl
      | succ j =>
          have hj : j < rest.length := Nat.succ_lt_succ_iff.mp h
          rw [List.get_cons_succ]
          rw [ih _ hnd2 j hj]
          have hmem := List.get_mem rest j hj
          have hne : rest.get ⟨j, hj⟩ ≠ a := fun hh => ha (hh ▸ hmem)
          simp only [Bool.false_eq_true, if_false]
          rw [updMap, if_neg hne]

theorem find_map_self {β : Type} (f : OpId → β) :
    ∀ (l : List OpId) (x : OpId), x ∈ l →
      find (l.map (fun op => (op, f op))) x = some (f x) := by
  intro l
  induction l with
  | nil => intro x hx; simp at hx
  | cons a rest ih =>
      intro x hx
      rw [List.map_cons, find_cons]
      by_cases hax : a = x
      · rw [if_pos hax, hax]
      · rw [if_neg hax]
        refine ih x ?_
        rcases List.mem_cons.mp hx with h1 | h1
        · exact absurd h1.symm hax
        · exact h1

/-- The entry of the liveness map at position `i` of the order: the value of
the backward recurrence over the strict suffix, united (by the adjustment
pass) with the bases of the instruction's own arguments. -/
theorem liveness_find (g : OpGraph) (results : List OpId) (m : SuccMap) :
    ∀ (order : List OpId), order.Nodup →
      ∀ (i : Nat) (h : i < order.length),
        find (liveness g results m order) (order.get ⟨i, h⟩) =
          some (live_after_chain g (persistentBases g m)
                  (base_tensor_descriptions g results ∪ persistentBases g m)
                  (order.drop (i + 1)) ∪
                base_tensor_descriptions g (g (order.get ⟨i, h⟩)).args) := by
  intro order hnd i h
  cases order with
  | nil => simp at h
  | cons o os =>
      rw [liveness,
        find_map_self _ (o :: os) ((o :: os).get ⟨i, h⟩) (List.get_mem (o :: os) i h),
        livenessAdjust_get g (o :: os) _ hnd i h,
        livenessUpdate_get g (persistentBases g m)
          (base_tensor_descriptions g results ∪ persistentBases g m)
          (o :: os) (List.cons_ne_nil o os) hnd i h]

theorem liveness_keys (g : OpGraph) (results : List OpId) (m : SuccMap) (order : List OpId) :
    (liveness g results m order).map Prod.fst = order := by
  cases order with
  | nil => rfl
  | cons o os =>
      rw [liveness, List.map_map]
      exact List.map_id (o :: os)

theorem pers_subset_chain (g : OpGraph) (pers seed : Finset Base) (hseed : pers ⊆ seed) :
    ∀ l : List OpId, pers ⊆ live_after_chain g pers seed l := by
  intro l
  induction l with
  | nil => exact hseed
  | cons c rest ih =>
      rw [live_after_chain]
      exact Finset.subset_union_right

/-! ### Liveness only reads the `persistent` flag of successors-map keys -/

/-- Replace the `persistent` flag of the single operation `q`, leaving every
other field and every other operation unchanged. -/
def setPersistent (g : OpGraph) (q : OpId) (b : Bool) : OpGraph :=
  fun x =>
    if x = q then
      Operation.mk (g x).args (g x).other_deps (g x).defs b (g x).tensor_desc
    else g x

theorem setPersistent_args (g : OpGraph) (q : OpId) (b : Bool) (x : OpId) :
    (setPersistent g q b x).args = (g x).args := by
  rw [setPersistent]; split <;> rfl

theorem setPersistent_defs (g : OpGraph) (q : OpId) (b : Bool) (x : OpId) :
    (setPersistent g q b x).defs = (g x).defs := by
  rw [setPersistent]; split <;> rfl

theorem setPersistent_tensor_desc (g : OpGraph) (q : OpId) (b : Bool) (x : OpId) :
    (setPersistent g q b x).tensor_desc = (g x).tensor_desc := by
  rw [setPersistent]; split <;> rfl

theorem setPersistent_persistent_of_ne (g : OpGraph) (q : OpId) (b : Bool) (x : OpId)
    (h : x ≠ q) : (setPersistent g q b x).persistent = (g x).persistent := by
  rw [setPersistent, if_neg h]

theorem base_tensor_descriptions_congr {g1 g2 : OpGraph}
    (htd : ∀ x, (g1 x).tensor_desc = (g2 x).tensor_desc) (l : List OpId) :
    base_tensor_descriptions g1 l = base_tensor_descriptions g2 l := by
  unfold base_tensor_descriptions
  congr 1
  induction l with
  | nil => rfl
  | cons a rest ih => rw [List.filterMap_cons, List.filterMap_cons, htd a, ih]

theorem livenessUpdate_congr {g1 g2 : OpGraph}
    (hargs : ∀ x, (g1 x).args = (g2 x).args)
    (hdefs : ∀ x, (g1 x).defs = (g2 x).defs)
    (htd : ∀ x, (g1 x).tensor_desc = (g2 x).tensor_desc)
    (pers : Finset Base) :
    ∀ (l : List (OpId × OpId)) (lv : OpId → Finset Base),
      livenessUpdate g1 pers l lv = livenessUpdate g2 pers l lv := by
  intro l
  induction l with
  | nil => intro lv; rfl
  | cons p rest ih =>
      intro lv
      obtain ⟨c, pr⟩ := p
      rw [livenessUpdate, livenessUpdate, hargs c, hdefs c,
        base_tensor_descriptions_congr htd (g2 c).args,
        base_tensor_descriptions_congr htd (g2 c).defs, ih]

theorem livenessAdjust_congr {g1 g2 : OpGraph}
    (hargs : ∀ x, (g1 x).args = (g2 x).args)
    (htd : ∀ x, (g1 x).tensor_desc = (g2 x).tensor_desc)
    (cip : OpId → Bool) :
    ∀ (l : List OpId) (lv : OpId → Finset Base),
      livenessAdjust g1 cip l lv = livenessAdjust g2 cip l lv := by
  intro l
  induction l with
  | nil => intro lv; rfl
  | cons a rest ih =>
      intro lv
      rw [livenessAdjust, livenessAdjust, hargs a,
        base_tensor_descriptions_congr htd (g2 a).args, ih]

theorem liveness_congr {g1 g2 : OpGraph}
    (hargs : ∀ x, (g1 x).args = (g2 x).args)
    (hdefs : ∀ x, (g1 x).defs = (g2 x).defs)
    (htd : ∀ x, (g1 x).tensor_desc = (g2 x).tensor_desc)
    (results : List OpId) (m : SuccMap)
    (hpb : persistentBases g1 m = persistentBases g2 m) (order : List OpId) :
    liveness g1 results m order = liveness g2 results m order := by
  cases order with
  | nil => rfl
  | cons o os =>
      rw [liveness, liveness]
      have hfun : (fun op => (op,
          livenessAdjust g1 can_do_inplace (o :: os)
            (livenessUpdate g1 (persistentBases g1 m) (pairsOf (o :: os))
              (updMap (fun _ => ∅) ((o :: os).getLast (List.cons_ne_nil o os))
                (base_tensor_descriptions g1 results ∪ persistentBases g1 m)))
            op)) = (fun op => (op,
          livenessAdjust g2 can_do_inplace (o :: os)
            (livenessUpdate g2 (persistentBases g2 m) (pairsOf (o :: os))
              (updMap (fun _ => ∅) ((o :: os).getLast (List.cons_ne_nil o os))
                (base_tensor_descriptions g2 results ∪ persistentBases g2 m)))
            op)) := by
        funext op
        rw [hpb, base_tensor_descriptions_congr htd results,
          livenessUpdate_congr hargs hdefs htd,
          livenessAdjust_congr hargs htd]
      rw [hfun]

theorem persistentBases_setPersistent {g : OpGraph} {m : SuccMap} {q : OpId} {b : Bool}
    (hq : q ∉ keys m) :
    persistentBases (setPersistent g q b) m = persistentBases g m := by
  unfold persistentBases
  have hfilter : (keys m).filter (fun x => (setPersistent g q b x).persistent) =
      (keys m).filter (fun x => (g x).persistent) := by
    apply List.filter_congr
    intro x hx
    rw [setPersistent_persistent_of_ne g q b x (fun hh => hq (hh ▸ hx))]
  rw [hfilter, base_tensor_descriptions_congr (setPersistent_tensor_desc g q b) _]

/-! ### The external topsort contract, and concrete scenario graphs -/

/-- Modelled from the spec: the contract of the external `topsort` collaborator
(spec §4.3, `ngraph.util.graph.Digraph.topsort`, not part of the analysed
source file): the instruction order is a duplicate-free permutation of the
keys of the successors map in which the source of every recorded edge occurs
strictly before its target. -/
def IsTopsortOf (m : SuccMap) (order : List OpId) : Prop :=
  order.Nodup ∧ (∀ x ∈ order, x ∈ keys m) ∧ (∀ x ∈ keys m, x ∈ order) ∧
  ∀ p ∈ m, ∀ w ∈ p.2, ∀ i < order.length, ∀ j < order.length,
    order.getD i 0 = p.1 → order.getD j 0 = w → i < j

instance (m : SuccMap) (order : List OpId) : Decidable (IsTopsortOf m order) :=
  inferInstanceAs (Decidable (order.Nodup ∧ (∀ x ∈ order, x ∈ keys m) ∧
    (∀ x ∈ keys m, x ∈ order) ∧
    ∀ p ∈ m, ∀ w ∈ p.2, ∀ i < order.length, ∀ j < order.length,
      order.getD i 0 = p.1 → order.getD j 0 = w → i < j))

/-- An operation with no dependencies, no tensor value and no persistence. -/
def opNone : Operation := Operation.mk [] [] [] false none

/-- The chain scenario of spec §8: op `A = 0` produces base `10`, op `C = 1`
has `A` as its only argument, produces base `11` and is the sole result, and
op `P = 2` is persistent with base `12` but is not an ancestor of `C`. -/
def chainG : OpGraph := fun i =>
  match i with
  | 0 => Operation.mk [] [] [] false (some 10)
  | 1 => Operation.mk [0] [] [] false (some 11)
  | 2 => Operation.mk [] [] [] true (some 12)
  | _ => opNone

/-- The successors map `DataFlowGraph.__init__` builds for `chainG` with
result set `{C}`. -/
def chainM : SuccMap := [(1, []), (0, [1])]

/-- A single persistent result op with base `20`. -/
def persG : OpGraph := fun i =>
  match i with
  | 0 => Operation.mk [] [] [] true (some 20)
  | _ => opNone

def persM : SuccMap := [(0, [])]

/-- A graph whose root has both an ordering-only dependency (op `1`) and a
data argument (op `2`), to exercise the other-dependencies-before-arguments
iteration order. -/
def odG : OpGraph := fun i =>
  match i with
  | 0 => Operation.mk [2] [1] [] false (some 30)
  | 1 => Operation.mk [] [] [] false (some 31)
  | 2 => Operation.mk [] [] [] false (some 32)
  | _ => opNone

def odM : SuccMap := [(0, []), (1, [0]), (2, [0])]

/-! ### The first-discovery trace of the construction -/

/-- The observable trace of the construction: the operations in first-discovery
order, and the recorded edges `(predecessor, successor)` in first-recording
order. -/
structure TraceState where
  seen : List OpId
  edges : List (OpId × OpId)
deriving DecidableEq, Repr

/-- Mark `w` discovered (appending it if new). -/
def recordSeen (st : TraceState) (w : OpId) : TraceState :=
  TraceState.mk (if w ∈ st.seen then st.seen else st.seen ++ [w]) st.edges

/-- Record the edge `v → w` (appending it if new). -/
def recordEdge (st : TraceState) (v w : OpId) : TraceState :=
  TraceState.mk st.seen (if (v, w) ∈ st.edges then st.edges else st.edges ++ [(v, w)])

/-- The successors of `v` read off the edge trace, in recording order. -/
def edgesOf (st : TraceState) (v : OpId) : List OpId :=
  (st.edges.filter (fun e => decide (e.1 = v))).map Prod.snd

/-- Modelled from the claim: the reference first-discovery traversal, which
processes the predecessors of each operation in the concrete sequence
other-dependencies first (in stored order) followed by arguments in order,
and records only discovery and edge order.  `sstep` abstracts the recursive
visit. -/
def spec_scan (sstep : OpId → TraceState → Option TraceState) :
    List OpId → OpId → TraceState → Option TraceState
  | [], _, st => some st
  | v :: vs, w, st =>
      (if v ∈ st.seen then some st else sstep v st).bind
        (fun st2 => spec_scan sstep vs w (recordEdge st2 v w))

/-- Modelled from the claim: visit `w`, then scan `w.other_deps ++ w.args`. -/
def spec_visit (g : OpGraph) : Nat → OpId → TraceState → Option TraceState
  | 0 => fun _ _ => none
  | fuel + 1 => fun w st => spec_scan (spec_visit g fuel) (preds g w) w (recordSeen st w)

def specBuildList (g : OpGraph) (fuel : Nat) : List OpId → TraceState → Option TraceState
  | [], st => some st
  | w :: ws, st =>
      match spec_visit g fuel w st with
      | none => none
      | some st2 => specBuildList g fuel ws st2

/-- The discovery trace of the whole construction, seeded from the results. -/
def specBuild (g : OpGraph) (fuel : Nat) (results : List OpId) : Option TraceState :=
  specBuildList g fuel results (TraceState.mk [] [])

/-- The simulation relation between a successors map and a trace: the keys are
the seen list, and every successor list is the successors read off the edge
trace in recording order. -/
def Sim (m : SuccMap) (st : TraceState) : Prop :=
  st.seen = keys m ∧ (∀ v s, find m v = some s → s = edgesOf st v) ∧
  (∀ v, v ∉ keys m → edgesOf st v = [])

theorem mem_edgesOf (st : TraceState) (v w : OpId) :
    w ∈ edgesOf st v ↔ (v, w) ∈ st.edges := by
  unfold edgesOf
  rw [List.mem_map]
  constructor
  · rintro ⟨⟨a, b⟩, hab, rfl⟩
    obtain ⟨hmem, hdec⟩ := List.mem_filter.mp hab
    have : a = v := by simpa using hdec
    subst this
    exact hmem
  · intro h
    exact ⟨(v, w), List.mem_filter.mpr ⟨h, by simp⟩, rfl⟩

theorem edgesOf_recordSeen (st : TraceState) (w v : OpId) :
    edgesOf (recordSeen st w) v = edgesOf st v := Eq.refl _

theorem edgesOf_recordEdge_self (st : TraceState) (v w : OpId) :
    edgesOf (recordEdge st v w) v =
      if (v, w) ∈ st.edges then edgesOf st v else edgesOf st v ++ [w] := by
  unfold recordEdge edgesOf
  by_cases h : (v, w) ∈ st.edges
  · rw [if_pos h, if_pos h]
  · rw [if_neg h, if_neg h]
    show ((st.edges ++ [(v, w)]).filter _).map _ = _
    rw [List.filter_append, List.map_append]
    congr 1
    simp

theorem edgesOf_recordEdge_ne (st : TraceState) (v w u : OpId) (h : u ≠ v) :
    edgesOf (recordEdge st v w) u = edgesOf st u := by
  unfold recordEdge edgesOf
  by_cases hh : (v, w) ∈ st.edges
  · rw [if_pos hh]
  · rw [if_neg hh]
    show ((st.edges ++ [(v, w)]).filter _).map _ = _
    rw [List.filter_append, List.map_append]
    have : ([(v, w)].filter (fun e => decide (e.1 = u))) = [] := by
      simp [Ne.symm h]
    rw [this]
    simp

theorem sim_insertKey {m : SuccMap} {st : TraceState} (w : OpId) (h : Sim m st) :
    Sim (insertKey m w) (recordSeen st w) := by
  obtain ⟨hseen, hfind, hnone⟩ := h
  by_cases hw : w ∈ keys m
  · have h1 : insertKey m w = m := by rw [insertKey, if_pos hw]
    have h2 : recordSeen st w = st := by
      rw [recordSeen, if_pos (show w ∈ st.seen by rw [hseen]; exact hw)]
    rw [h1, h2]
    exact ⟨hseen, hfind, hnone⟩
  · have hwseen : w ∉ st.seen := by rw [hseen]; exact hw
    refine ⟨?_, ?_, ?_⟩
    · rw [insertKey, if_neg hw, recordSeen, if_neg hwseen]
      show st.seen ++ [w] = keys (m ++ [(w, [])])
      rw [hseen]
      unfold keys
      rw [List.map_append]
      rfl
    · intro v s hs
      rw [insertKey, if_neg hw] at hs
      rw [edgesOf_recordSeen]
      cases hf : find m v with
      | some t =>
          rw [find_append_of_some _ hf] at hs
          obtain rfl := Option.some.inj hs
          exact hfind v t hf
      | none =>
          rw [find_append_of_none _ hf, find_cons] at hs
          by_cases hwv : w = v
          · rw [if_pos hwv] at hs
            obtain rfl := Option.some.inj hs
            exact (hnone v (hwv ▸ hw)).symm
          · rw [if_neg hwv] at hs
            exact absurd hs (by simp [find])
    · intro v hv
      rw [insertKey, if_neg hw] at hv
      have hvm : v ∉ keys m := by
        intro hh
        exact hv (by unfold keys; rw [List.map_append]; exact List.mem_append_left _ hh)
      rw [edgesOf_recordSeen]
      exact hnone v hvm

theorem sim_addEdge {m : SuccMap} {st : TraceState} {v : OpId} {s : List OpId} (w : OpId)
    (h : Sim m st) (hv : find m v = some s) :
    Sim (addEdge m v w) (recordEdge st v w) := by
  obtain ⟨hseen, hfind, hnone⟩ := h
  have hsedges : s = edgesOf st v := hfind v s hv
  have hguard : (w ∈ s) ↔ ((v, w) ∈ st.edges) := by rw [hsedges, mem_edgesOf]
  refine ⟨?_, ?_, ?_⟩
  · rw [keys_addEdge_of_mem w (find_mem_keys hv)]
    exact hseen
  · intro u t ht
    by_cases huv : u = v
    · subst huv
      rw [find_addEdge_self w hv] at ht
      obtain rfl := Option.some.inj ht
      rw [edgesOf_recordEdge_self]
      by_cases hw : w ∈ s
      · rw [if_pos hw, if_pos (hguard.mp hw), hsedges]
      · rw [if_neg hw, if_neg (fun hh => hw (hguard.mpr hh)), hsedges]
    · rw [find_addEdge_of_ne w huv] at ht
      rw [edgesOf_recordEdge_ne st v w u huv]
      exact hfind u t ht
  · intro u hu
    rw [keys_addEdge_of_mem w (find_mem_keys hv)] at hu
    have huv : u ≠ v := fun hh => hu (hh ▸ find_mem_keys hv)
    rw [edgesOf_recordEdge_ne st v w u huv]
    exact hnone u hu

/-- The simulation contract for a recursive visit step. -/
def SimStep (step : OpId → SuccMap → Option SuccMap)
    (sstep : OpId → TraceState → Option TraceState) : Prop :=
  ∀ v m m' st, Sim m st → step v m = some m' →
    v ∈ keys m' ∧ ∃ st', sstep v st = some st' ∧ Sim m' st'

theorem spec_scan_sim (step : OpId → SuccMap → Option SuccMap)
    (sstep : OpId → TraceState → Option TraceState) (hsim : SimStep step sstep) :
    ∀ (vs : List OpId) (w : OpId) (m m' : SuccMap) (st : TraceState),
      Sim m st → fill_list step vs w m = some m' →
      ∃ st', spec_scan sstep vs w st = some st' ∧ Sim m' st' := by
  intro vs
  induction vs with
  | nil =>
      intro w m m' st hs h
      rw [fill_list] at h
      obtain rfl := Option.some.inj h
      exact ⟨st, by rw [spec_scan], hs⟩
  | cons v vs ih =>
      intro w m m' st hst h
      rw [fill_list] at h
      rw [spec_scan]
      have hguard : (v ∈ st.seen) ↔ (v ∈ keys m) := by rw [hst.1]
      by_cases hv : v ∈ keys m
      · rw [if_pos hv, Option.some_bind] at h
        rw [if_pos (hguard.mpr hv), Option.some_bind]
        obtain ⟨s, hs⟩ := mem_keys_iff_find.mp hv
        exact ih w (addEdge m v w) m' (recordEdge st v w) (sim_addEdge w hst hs) h
      · rw [if_neg hv] at h
        cases hstep : step v m with
        | none => rw [hstep, Option.none_bind] at h; exact absurd h (by simp)
        | some m2 =>
            rw [hstep, Option.some_bind] at h
            obtain ⟨hvk2, st2, hst2, hsim2⟩ := hsim v m m2 st hst hstep
            rw [if_neg (fun hh => hv (hguard.mp hh)), hst2, Option.some_bind]
            obtain ⟨s, hs⟩ := mem_keys_iff_find.mp hvk2
            exact ih w (addEdge m2 v w) m' (recordEdge st2 v w) (sim_addEdge w hsim2 hs) h

theorem spec_visit_sim (g : OpGraph) :
    ∀ fuel, SimStep (fill_successors g fuel) (spec_visit g fuel) := by
  intro fuel
  induction fuel with
  | zero =>
      intro v m m' st hs h
      simp [fill_successors] at h
  | succ fuel ih =>
      intro v m m' st hs h
      have hok := fill_successors_ok g (fun _ => True) (fun _ _ _ _ => trivial) (fuel + 1) v m m' h
      rw [fill_successors] at h
      obtain ⟨st', h1, h2⟩ :=
        spec_scan_sim _ _ ih (preds g v) v (insertKey m v) m' (recordSeen st v)
          (sim_insertKey v hs) h
      exact ⟨hok.2.1, st', by rw [spec_visit]; exact h1, h2⟩

theorem specBuildList_sim (g : OpGraph) (fuel : Nat) :
    ∀ (ws : List OpId) (m M : SuccMap) (st : TraceState),
      Sim m st → buildSuccessors g fuel ws m = some M →
      ∃ st', specBuildList g fuel ws st = some st' ∧ Sim M st' := by
  intro ws
  induction ws with
  | nil =>
      intro m M st hs h
      rw [buildSuccessors] at h
      obtain rfl := Option.some.inj h
      exact ⟨st, by rw [specBuildList], hs⟩
  | cons w ws ih =>
      intro m M st hs h
      rw [buildSuccessors] at h
      cases hf : fill_successors g fuel w m with
      | none => rw [hf] at h; exact absurd h (by simp)
      | some m2 =>
          rw [hf] at h
          obtain ⟨hk, st2, hst2, hsim2⟩ := spec_visit_sim g fuel w m m2 st hs hf
          obtain ⟨st', h1, h2⟩ := ih m2 M st2 hsim2 h
          exact ⟨st', by rw [specBuildList, hst2]; exact h1, h2⟩

theorem sim_nil : Sim [] (TraceState.mk [] []) := by
  refine ⟨Eq.refl _, ?_, ?_⟩
  · intro v s hs; simp [find] at hs
  · intro v hv; rfl

/-! ### The claims -/

/-- C1: for every graph and every non-empty, duplicate-free instruction order
(as the topsort contract guarantees), `liveness()` returns a mapping whose
keys are exactly the instructions of the order; the entry for the last
instruction is `result_bases ∪ persistent_bases ∪ bases(last.args)`; and for
every adjacent pair of positions `(i, i+1)` the entry for the earlier
instruction is `bases(current.args) ∪ (pre-adjustment entry of current −
bases(current.defs)) ∪ persistent_bases ∪ bases(previous.args)` — the
pre-adjustment entry of the instruction at `i+1` being
`live_after_chain … (order.drop (i+2))`, and the final `∪ bases(own args)`
term coming from the adjustment pass, applied to every instruction because
the reference in-place policy `can_do_inplace` is constantly false. -/
theorem liveness_backward_recurrence (g : OpGraph) (results : List OpId) (m : SuccMap)
    (order : List OpId) (hne : order ≠ []) (hnd : order.Nodup) :
    ((liveness g results m order).map Prod.fst = order) ∧
    (find (liveness g results m order) (order.getLast hne) =
      some (base_tensor_descriptions g results ∪ persistentBases g m ∪
            base_tensor_descriptions g (g (order.getLast hne)).args)) ∧
    (∀ (i : Nat) (h : i + 1 < order.length),
      find (liveness g results m order) (order.get ⟨i, Nat.lt_of_succ_lt h⟩) =
        some (base_tensor_descriptions g (g (order.get ⟨i + 1, h⟩)).args ∪
              (live_after_chain g (persistentBases g m)
                  (base_tensor_descriptions g results ∪ persistentBases g m)
                  (order.drop (i + 2)) \
                base_tensor_descriptions g (g (order.get ⟨i + 1, h⟩)).defs) ∪
              persistentBases g m ∪
              base_tensor_descriptions g (g (order.get ⟨i, Nat.lt_of_succ_lt h⟩)).args)) := by
  refine ⟨liveness_keys g results m order, ?_, ?_⟩
  · have hpos : 0 < order.length := List.length_pos.mpr hne
    have hlen : order.length - 1 < order.length := Nat.sub_lt hpos Nat.one_pos
    have hgl : order.getLast hne = order.get ⟨order.length - 1, hlen⟩ :=
      List.getLast_eq_get order hne
    rw [hgl, liveness_find g results m order hnd (order.length - 1) hlen]
    have hsucc : order.length - 1 + 1 = order.length := Nat.succ_pred_eq_of_pos hpos
    rw [hsucc, List.drop_length, live_after_chain]
  · intro i h
    rw [liveness_find g results m order hnd i (Nat.lt_of_succ_lt h)]
    have hdrop : order.drop (i + 1) = order.get ⟨i + 1, h⟩ :: order.drop (i + 2) :=
      List.drop_eq_get_cons h
    rw [hdrop, live_after_chain]

theorem liveness_backward_recurrence_witness :
    ([0, 1] : List OpId) ≠ [] ∧ ([0, 1] : List OpId).Nodup ∧
    find (liveness chainG [1] chainM [0, 1])
        (([0, 1] : List OpId).getLast (by decide)) =
      some (base_tensor_descriptions chainG [1] ∪ persistentBases chainG chainM ∪
            base_tensor_descriptions chainG
              (chainG (([0, 1] : List OpId).getLast (by decide))).args) :=
  ⟨by decide, by decide,
    (liveness_backward_recurrence chainG [1] chainM [0, 1] (by decide) (by decide)).2.1⟩

/-- C2: after construction, for operations `u`, `v` that are keys of the
successors map, `v` is in `u`'s successor list iff `v` lists `u` among its
arguments or other-dependencies; and each successor list is duplicate-free
(a predecessor mentioned twice yields the edge once; the list representation
carries first-discovery insertion order). -/
theorem successors_edge_iff (g : OpGraph) (fuel : Nat) (results : List OpId) (M : SuccMap)
    (h : build g fuel results = some M) (u v : OpId) (hu : u ∈ keys M) (hv : v ∈ keys M) :
    ((∃ s, find M u = some s ∧ v ∈ s) ↔ u ∈ preds g v) ∧
    (∀ s, find M u = some s → s.Nodup) := by
  obtain ⟨⟨hknd, hvnd, hes, hproc, hreach⟩, hres⟩ := build_ok h
  refine ⟨⟨?_, ?_⟩, ?_⟩
  · rintro ⟨s, hs, hvs⟩
    exact hes u s hs v hvs
  · intro hupred
    exact hproc v hv u hupred
  · intro s hs
    exact hvnd u s hs

theorem successors_edge_iff_witness :
    build chainG 3 [1] = some chainM ∧ (0 : OpId) ∈ keys chainM ∧
    (1 : OpId) ∈ keys chainM ∧
    (((∃ s, find chainM 0 = some s ∧ 1 ∈ s) ↔ (0 : OpId) ∈ preds chainG 1) ∧
      (∀ s, find chainM 0 = some s → s.Nodup)) :=
  ⟨by decide, by decide, by decide,
    successors_edge_iff chainG 3 [1] chainM (by decide) 0 1 (by decide) (by decide)⟩

/-- C3: the keys of the built successors map are exactly the operations
transitively reachable from the result set via arguments and
other-dependencies (the results included); no unreachable operation is a key. -/
theorem successors_keys_iff_reachable (g : OpGraph) (fuel : Nat) (results : List OpId)
    (M : SuccMap) (h : build g fuel results = some M) :
    ∀ x, x ∈ keys M ↔ Reachable g results x :=
  build_keys_iff_reachable h

theorem successors_keys_iff_reachable_witness :
    build chainG 3 [1] = some chainM ∧
    ((0 : OpId) ∈ keys chainM ↔ Reachable chainG [1] 0) :=
  ⟨by decide, successors_keys_iff_reachable chainG 3 [1] chainM (by decide) 0⟩

/-- C4: every base of a persistent operation of the graph (i.e. of a key of
the successors map, the set the implementation draws `persistent_bases` from)
belongs to the live set of every instruction of the order. -/
theorem persistent_bases_always_live (g : OpGraph) (results : List OpId) (m : SuccMap)
    (order : List OpId) (hnd : order.Nodup) (p : OpId) (hp : p ∈ keys m)
    (hpers : (g p).persistent = true) (b : Base) (hb : (g p).tensor_desc = some b)
    (op : OpId) (hop : op ∈ order) (s : Finset Base)
    (hs : find (liveness g results m order) op = some s) : b ∈ s := by
  obtain ⟨⟨i, hi⟩, rfl⟩ := List.mem_iff_get.mp hop
  rw [liveness_find g results m order hnd i hi] at hs
  obtain rfl := Option.some.inj hs
  have hbp : b ∈ persistentBases g m := by
    unfold persistentBases base_tensor_descriptions
    rw [List.mem_toFinset]
    exact List.mem_filterMap.mpr ⟨p, List.mem_filter.mpr ⟨hp, hpers⟩, hb⟩
  have hsub := pers_subset_chain g (persistentBases g m)
    (base_tensor_descriptions g results ∪ persistentBases g m)
    Finset.subset_union_right (order.drop (i + 1))
  exact Finset.mem_union_left _ (hsub hbp)

theorem persistent_bases_always_live_witness :
    ([0] : List OpId).Nodup ∧ (0 : OpId) ∈ keys persM ∧
    (persG 0).persistent = true ∧ (persG 0).tensor_desc = some 20 ∧
    (0 : OpId) ∈ ([0] : List OpId) ∧
    find (liveness persG [0] persM [0]) 0 = some ({20} : Finset Base) ∧
    (20 : Base) ∈ ({20} : Finset Base) :=
  ⟨by decide, by decide, by decide, by decide, by decide, by decide,
    persistent_bases_always_live persG [0] persM [0] (by decide) 0 (by decide) (by decide)
      20 (by decide) 0 (by decide) {20} (by decide)⟩

/-- C5: for every instruction of the order, the bases of its own arguments are
contained in its live set — guaranteed by the adjustment pass, which applies
to every instruction because `can_do_inplace` is constantly false. -/
theorem argument_bases_live (g : OpGraph) (results : List OpId) (m : SuccMap)
    (order : List OpId) (hnd : order.Nodup) (op : OpId) (hop : op ∈ order)
    (s : Finset Base) (hs : find (liveness g results m order) op = some s) :
    base_tensor_descriptions g (g op).args ⊆ s := by
  obtain ⟨⟨i, hi⟩, rfl⟩ := List.mem_iff_get.mp hop
  rw [liveness_find g results m order hnd i hi] at hs
  obtain rfl := Option.some.inj hs
  exact Finset.subset_union_right

theorem argument_bases_live_witness :
    ([0, 1] : List OpId).Nodup ∧ (1 : OpId) ∈ ([0, 1] : List OpId) ∧
    find (liveness chainG [1] chainM [0, 1]) 1 = some ({11, 10} : Finset Base) ∧
    base_tensor_descriptions chainG (chainG 1).args ⊆ ({11, 10} : Finset Base) :=
  ⟨by decide, by decide, by decide,
    argument_bases_live chainG [1] chainM [0, 1] (by decide) 1 (by decide)
      {11, 10} (by decide)⟩

/-- C6 counterexample: in the chain scenario (`chainG`, result `{C}`,
instruction order `[A, C]` which satisfies the topsort contract), the live set
associated with `A` is not `{a, c, p} = {10, 11, 12}`: the persistent op `P`
is not an ancestor of `C`, hence not a key of the successors map, and its base
`p = 12` never enters `persistent_bases`. -/
theorem chain_scenario_cex :
    build chainG 3 [1] = some chainM ∧ IsTopsortOf chainM [0, 1] ∧
    (chainG 2).persistent = true ∧ (chainG 2).tensor_desc = some 12 ∧
    (2 : OpId) ∉ keys chainM ∧
    find (liveness chainG [1] chainM [0, 1]) 0 ≠ some ({10, 11, 12} : Finset Base) := by
  decide

/-- C6 amended: in the chain scenario the live set that `liveness()`
associates with `A` equals `{a, c} = {10, 11}`; the persistent base `p` is
absent because `P` is not reachable from the result set, so it is not a key of
the successors map and contributes nothing to `persistent_bases`. -/
theorem chain_scenario_amended :
    build chainG 3 [1] = some chainM ∧ IsTopsortOf chainM [0, 1] ∧
    find (liveness chainG [1] chainM [0, 1]) 0 = some ({10, 11} : Finset Base) := by
  decide

/-- C7: on a finite acyclic input graph — witnessed by a rank function
strictly decreasing along predecessor edges — and with fuel exceeding the rank
of every result, the recursive construction terminates, and it registers
exactly the operations reachable from the result set as keys, each once
(duplicate-free key list). -/
theorem build_terminates_on_acyclic (g : OpGraph) (rank : OpId → Nat) (fuel : Nat)
    (results : List OpId) (hrank : ∀ w v, v ∈ preds g w → rank v < rank w)
    (hfuel : ∀ w ∈ results, rank w < fuel) :
    ∃ M, build g fuel results = some M ∧ (keys M).Nodup ∧
      ∀ x, x ∈ keys M ↔ Reachable g results x := by
  obtain ⟨M, hM⟩ := buildSuccessors_total g fuel rank hrank results [] hfuel
  have hM2 : build g fuel results = some M := hM
  obtain ⟨⟨hknd, -, -, -, -⟩, -⟩ := build_ok hM2
  exact ⟨M, hM2, hknd, build_keys_iff_reachable hM2⟩

theorem build_terminates_on_acyclic_witness :
    ∃ M, build chainG 2 [1] = some M ∧ (keys M).Nodup ∧
      ∀ x, x ∈ keys M ↔ Reachable chainG [1] x := by
  refine build_terminates_on_acyclic chainG (fun i => i) 2 [1] ?_ (by decide)
  intro w v hv
  match w with
  | 0 => simp [preds, chainG] at hv
  | 1 =>
      simp [preds, chainG] at hv
      subst hv
      decide
  | 2 => simp [preds, chainG] at hv
  | (n + 3) => simp [preds, chainG, opNone] at hv

/-- C8: an empty result set is a valid input, not an error: construction
yields the empty successors map, the only order satisfying the topsort
contract for it is the empty sequence, and `liveness()` on it is the empty
mapping. -/
theorem empty_results_empty_analysis (g : OpGraph) (fuel : Nat) (order : List OpId) :
    build g fuel [] = some [] ∧
    (IsTopsortOf [] order → order = [] ∧ liveness g [] [] order = []) := by
  refine ⟨by rw [build, buildSuccessors], ?_⟩
  intro ht
  have horder : order = [] := by
    cases order with
    | nil => rfl
    | cons o os =>
        exact absurd (ht.2.1 o (List.mem_cons_self o os)) (by simp [keys])
  subst horder
  exact ⟨Eq.refl _, Eq.refl _⟩

theorem empty_results_empty_analysis_witness :
    build (fun _ => opNone) 0 [] = some [] ∧
    (([] : List OpId) = [] ∧ liveness (fun _ => opNone) [] [] [] = []) :=
  ⟨(empty_results_empty_analysis (fun _ => opNone) 0 []).1,
    (empty_results_empty_analysis (fun _ => opNone) 0 []).2 (by decide)⟩

/-- C9: the persistent-bases set is computed only over the keys of the
successors map, i.e. the operations reachable from the result set: flipping
the persistent flag of any operation that is not reachable leaves the entire
liveness mapping unchanged, so an unreachable persistent operation contributes
no base to any instruction's live set. -/
theorem unreachable_persistent_irrelevant (g : OpGraph) (fuel : Nat) (results : List OpId)
    (m : SuccMap) (order : List OpId) (q : OpId) (b : Bool)
    (hbuild : build g fuel results = some m) (hq : ¬ Reachable g results q) :
    liveness (setPersistent g q b) results m order = liveness g results m order := by
  have hqm : q ∉ keys m := fun hk => hq ((build_keys_iff_reachable hbuild q).mp hk)
  exact liveness_congr (setPersistent_args g q b) (setPersistent_defs g q b)
    (setPersistent_tensor_desc g q b) results m (persistentBases_setPersistent hqm) order

theorem unreachable_persistent_irrelevant_witness :
    build chainG 3 [1] = some chainM ∧
    liveness (setPersistent chainG 2 false) [1] chainM [0, 1] =
      liveness chainG [1] chainM [0, 1] :=
  ⟨by decide,
    unreachable_persistent_irrelevant chainG 3 [1] chainM [0, 1] 2 false (by decide)
      (fun hr => (by decide : (2 : OpId) ∉ keys chainM)
        ((build_keys_iff_reachable
          (show build chainG 3 [1] = some chainM by decide) 2).mpr hr))⟩

/-- C10: the builder processes each operation's predecessors in the concrete
sequence other-dependencies first (in stored order) followed by arguments in
order — the sequence `preds` iterated by both `fill_successors` and the
reference trace `specBuild` — and consequently the first-discovery insertion
order of the successors-map keys and of each successor list is the one this
iteration induces: the keys equal the trace's seen list, and each successor
list is read off the trace's edge list in first-recording order. -/
theorem discovery_order_spec (g : OpGraph) (fuel : Nat) (results : List OpId) (M : SuccMap)
    (h : build g fuel results = some M) :
    ∃ st, specBuild g fuel results = some st ∧ keys M = st.seen ∧
      ∀ v s, find M v = some s → s = edgesOf st v := by
  obtain ⟨st, h1, h2⟩ := specBuildList_sim g fuel results [] M (TraceState.mk [] []) sim_nil h
  exact ⟨st, h1, h2.1.symm, h2.2.1⟩

theorem discovery_order_spec_witness :
    build odG 3 [0] = some odM ∧
    specBuild odG 3 [0] = some (TraceState.mk [0, 1, 2] [(1, 0), (2, 0)]) ∧
    (∃ st, specBuild odG 3 [0] = some st ∧ keys odM = st.seen ∧
      ∀ v s, find odM v = some s → s = edgesOf st v) :=
  ⟨by decide, by decide, discovery_order_spec odG 3 [0] odM (by decide)⟩

end NGraph
